import Mathlib

/-!
Verification of the DeepL auto-translation script
(`.github/scripts/translate.py` of jahartmann/TheReanimator).

The script is a linear pipeline: read locale configuration from
`src/i18n/routing.ts` by pattern matching, load the default-locale JSON
catalog, flatten it to dotted key paths, detect missing/changed keys per
target locale using a persisted hash ledger, translate them through the
DeepL API, merge the results back into the target catalogs and save the
updated ledger.

Shallow embedding conventions:
* JSON catalogs are `JTree` values: leaves are strings (the data model of
  the script: nested string-keyed trees with string leaves), objects
  (`JObj`) are insertion-ordered key/value sequences, mirroring Python
  dicts (insertion order preserved, assignment to an existing key keeps
  its position).
* Python strings are Lean `String`s; `path.split('.')` is implemented
  character by character (`splitD`).
* The MD5-based `get_hash` calls into `hashlib`; it is modelled as an
  abstract function `getHash : String → String` (its only property used by
  the script is that its result is a non-empty hex string, which appears as
  an explicit hypothesis where needed).
* The DeepL client call is modelled as an abstract
  `api : String → String → Option String → ApiOutcome`; raising an
  exception is the `.err` outcome.
* `sys.exit(1)` is `Except.error 1`; normal return of `main` is `.ok`.
* Console printing is ignored; file writes are recorded in the run result.
-/

mutual
/-- A JSON value as used by the script: nested string-keyed objects with
string leaves. -/
inductive JTree where
  | leaf : String → JTree
  | node : JObj → JTree

/-- A JSON object: insertion-ordered association sequence, as a Python
dict. -/
inductive JObj where
  | nil : JObj
  | cons : String → JTree → JObj → JObj
end

/-- Build an object from a list of entries (notation convenience for
concrete examples; the entries keep their order). -/
def JObj.ofList : List (String × JTree) → JObj
  | [] => JObj.nil
  | (k, v) :: rest => JObj.cons k v (JObj.ofList rest)

mutual
/-- Structural equality test on values. -/
def JTree.beq : JTree → JTree → Bool
  | .leaf s, .leaf t => s = t
  | .node es, .node fs => JObj.beq es fs
  | _, _ => false

/-- Structural equality test on objects. -/
def JObj.beq : JObj → JObj → Bool
  | .nil, .nil => true
  | .cons k v rest, .cons k' v' rest' =>
      (k = k' : Bool) && JTree.beq v v' && JObj.beq rest rest'
  | _, _ => false
end

mutual
theorem JTree.beq_iff_tree : ∀ a b : JTree, JTree.beq a b = true ↔ a = b
  | .leaf s, .leaf t => by simp [JTree.beq]
  | .leaf s, .node fs => by simp [JTree.beq]
  | .node es, .leaf t => by simp [JTree.beq]
  | .node es, .node fs => by simp [JTree.beq, JObj.beq_iff_obj es fs]

theorem JObj.beq_iff_obj : ∀ a b : JObj, JObj.beq a b = true ↔ a = b
  | .nil, .nil => by simp [JObj.beq]
  | .nil, .cons k' v' rest' => by simp [JObj.beq]
  | .cons k v rest, .nil => by simp [JObj.beq]
  | .cons k v rest, .cons k' v' rest' => by
      simp [JObj.beq, JTree.beq_iff_tree v v', JObj.beq_iff_obj rest rest',
        Bool.and_assoc]
end

instance : DecidableEq JTree := fun a b =>
  decidable_of_iff (JTree.beq a b = true) (JTree.beq_iff_tree a b)

instance : DecidableEq JObj := fun a b =>
  decidable_of_iff (JObj.beq a b = true) (JObj.beq_iff_obj a b)

/-- Python dict lookup `d[k]` / `k in d` on an ordered association
sequence. -/
def lookupKey : JObj → String → Option JTree
  | .nil, _ => none
  | .cons k' v' rest, k => if k' = k then some v' else lookupKey rest k

/-- Python dict assignment `d[k] = v`: replaces in place when the key is
present (keeping its position), otherwise appends at the end. -/
def dictUpdate : JObj → String → JTree → JObj
  | .nil, k, v => .cons k v .nil
  | .cons k' v' rest, k, v =>
      if k' = k then .cons k v rest else .cons k' v' (dictUpdate rest k v)

/-- Lookup in a flat string-to-string Python dict (hash ledger, flattened
catalogs). -/
def lookupFlat : List (String × String) → String → Option String
  | [], _ => none
  | (k', v') :: rest, k => if k' = k then some v' else lookupFlat rest k

/-- Assignment in a flat string-to-string Python dict. -/
def upsertFlat : List (String × String) → String → String → List (String × String)
  | [], k, v => [(k, v)]
  | (k', v') :: rest, k, v =>
      if k' = k then (k, v) :: rest else (k', v') :: upsertFlat rest k v

/-- Python `str.split('.')` on the underlying character list: splits at
every dot; always returns at least one (possibly empty) group. -/
def splitD : List Char → List (List Char)
  | [] => [[]]
  | c :: rest =>
      if c = '.' then [] :: splitD rest
      else
        match splitD rest with
        | [] => [[c]]
        | g :: gs => (c :: g) :: gs

/-- `path.split('.')` of the script (`get_nested_value`, merge loop). -/
def splitOnDot (s : String) : List String :=
  (splitD s.data).map String.mk

/-- The f-string `f"{prefix}.{key}" if prefix else key` of
`collect_all_keys`. -/
def joinPath (pfx k : String) : String :=
  if pfx = "" then k else pfx ++ "." ++ k

/-- `get_nested_value` walk: descend through nested dicts along the split
path; any miss (absent key, or a non-dict in the middle) yields `None`. -/
def getNestedAux : JTree → List String → Option JTree
  | t, [] => some t
  | JTree.leaf _, _ :: _ => none
  | JTree.node es, k :: rest =>
      match lookupKey es k with
      | some v => getNestedAux v rest
      | none => none

/-- `get_nested_value(obj, path)` from the script (lines 84–93). -/
def get_nested_value (obj : JObj) (path : String) : Option JTree :=
  getNestedAux (JTree.node obj) (splitOnDot path)

/-- `collect_all_keys(data, prefix)` (lines 163–172).  The Python builds a
dict `result` by `result[current_path] = value` for leaves and
`result.update(collect_all_keys(value, current_path))` for sub-objects;
both are modelled by threading the accumulating flat dict through, which
agrees with Python dict-update semantics. -/
def collect_all_keys : JObj → String → List (String × String) → List (String × String)
  | .nil, _, result => result
  | .cons k (JTree.leaf s) rest, pfx, result =>
      collect_all_keys rest pfx (upsertFlat result (joinPath pfx k) s)
  | .cons k (JTree.node es) rest, pfx, result =>
      collect_all_keys rest pfx (collect_all_keys es (joinPath pfx k) result)

/-- The nested-structure-building loop of `main` (lines 281–291): walk
`parts[:-1]`, replacing absent keys and non-dict values by `{}`, then set
the last part to the translated value. -/
def set_nested : JObj → List String → String → JObj
  | d, [], _ => d
  | d, [p], v => dictUpdate d p (JTree.leaf v)
  | d, p :: q :: rest, v =>
      let sub : JObj :=
        match lookupKey d p with
        | some (JTree.node es) => es
        | _ => .nil
      dictUpdate d p (JTree.node (set_nested sub (q :: rest) v))

/-- Merging a list of (dotted path, value) pairs into a target object by
repeating the nested-structure-building loop, as `main` does over
`missing_or_changed`. -/
def mergePairs (target : JObj) (pairs : List (String × String)) : JObj :=
  pairs.foldl (fun d pr => set_nested d (splitOnDot pr.1) pr.2) target

/-- Outcome of one DeepL API call: normal result or raised exception. -/
inductive ApiOutcome where
  | ok : String → ApiOutcome
  | err : String → ApiOutcome
deriving Repr, DecidableEq

/-- Python `\s` for the ASCII range (str.strip / regex whitespace). -/
def isPySpace (c : Char) : Bool :=
  c = ' ' || c = '\t' || c = '\n' || c = '\r' || c = '\x0b' || c = '\x0c'

/-- `not text.strip()`: the text is empty or whitespace-only. -/
def isBlank (s : String) : Bool :=
  s.data.all isPySpace

/-- Python `s.startswith(p)` on the underlying character lists. -/
def pyStartsWith (s p : String) : Bool :=
  p.data.isPrefixOf s.data

/-- Python `s.endswith(p)` on the underlying character lists. -/
def pyEndsWith (s p : String) : Bool :=
  p.data.reverse.isPrefixOf s.data.reverse

/-- `translate_text(text, target_lang, source_lang)` (lines 130–161),
instrumented with a flag recording whether the DeepL API was invoked.
Empty/whitespace-only strings and `__…__` placeholder strings are returned
unchanged without an API call; an API exception falls back to the original
text. -/
def translate_text (api : String → String → Option String → ApiOutcome)
    (text targetLang : String) (sourceLang : Option String := none) :
    String × Bool :=
  if isBlank text then (text, false)
  else if pyStartsWith text "__" && pyEndsWith text "__" then (text, false)
  else
    match api text targetLang sourceLang with
    | ApiOutcome.ok r => (r, true)
    | ApiOutcome.err _ => (text, true)

/-- Drop a literal prefix, failing when it does not match. -/
def dropLit : List Char → List Char → Option (List Char)
  | [], cs => some cs
  | _ :: _, [] => none
  | l :: ls, c :: cs => if c = l then dropLit ls cs else none

/-- Try the regex `locales\s*:\s*\[([^\]]+)\]` at the start of the
character list, returning the capture group. -/
def matchLocalesAt (cs : List Char) : Option (List Char) :=
  match dropLit "locales".data cs with
  | none => none
  | some cs1 =>
      match cs1.dropWhile isPySpace with
      | ':' :: cs3 =>
          match cs3.dropWhile isPySpace with
          | '[' :: cs5 =>
              let cap := cs5.takeWhile (fun c => !(c = ']'))
              if cap.isEmpty then none
              else
                match cs5.drop cap.length with
                | ']' :: _ => some cap
                | _ => none
          | _ => none
      | _ => none

/-- `re.search` scan for the locales-array pattern: leftmost match wins. -/
def searchLocales : List Char → Option (List Char)
  | [] => none
  | c :: rest =>
      match matchLocalesAt (c :: rest) with
      | some cap => some cap
      | none => searchLocales rest

/-- `re.findall(r"'([a-z]{2})'", s)`: all non-overlapping two-lowercase
letter quoted codes, left to right. -/
def findallCodes : List Char → List String
  | '\'' :: a :: b :: '\'' :: rest =>
      if a.isLower && b.isLower then String.mk [a, b] :: findallCodes rest
      else findallCodes (a :: b :: '\'' :: rest)
  | _ :: rest => findallCodes rest
  | [] => []

/-- Try the regex `defaultLocale\s*:\s*'([a-z]{2})'` at the start of the
character list, returning the captured code. -/
def matchDefaultAt (cs : List Char) : Option String :=
  match dropLit "defaultLocale".data cs with
  | none => none
  | some cs1 =>
      match cs1.dropWhile isPySpace with
      | ':' :: cs3 =>
          match cs3.dropWhile isPySpace with
          | '\'' :: a :: b :: '\'' :: _ =>
              if a.isLower && b.isLower then some (String.mk [a, b]) else none
          | _ => none
      | _ => none

/-- `re.search` scan for the default-locale pattern. -/
def searchDefault : List Char → Option String
  | [] => none
  | c :: rest =>
      match matchDefaultAt (c :: rest) with
      | some code => some code
      | none => searchDefault rest

/-- The locales-array part of `get_locales_from_routing` applied to the
routing file content (lines 101–113). -/
def getLocalesContent (content : String) : Except Nat (List String) :=
  match searchLocales content.data with
  | none => Except.error 1
  | some localesStr => Except.ok (findallCodes localesStr)

/-- `get_locales_from_routing` (lines 95–113): `sys.exit(1)` when the
routing file is absent or the locales array cannot be located. -/
def getLocalesFromRouting (routing : Option String) : Except Nat (List String) :=
  match routing with
  | none => Except.error 1
  | some content => getLocalesContent content

/-- `get_default_locale` (lines 115–119): falls back to `"de"` when the
pattern is not found — it does NOT abort. -/
def getDefaultLocale (content : String) : String :=
  match searchDefault content.data with
  | some code => code
  | none => "de"

/-- The `DEEPL_LANG_CODES` table (lines 50–63). -/
def deeplLangCodes : List (String × String) :=
  [("en", "EN-US"), ("ru", "RU"), ("es", "ES"), ("fr", "FR"), ("it", "IT"),
   ("pt", "PT-BR"), ("nl", "NL"), ("pl", "PL"), ("uk", "UK"), ("ja", "JA"),
   ("zh", "ZH")]

/-- Body of the hash-update loop of `main` (lines 222–230): when the
stored hash differs from the hash of the current source value (or there is
no stored hash), store the current hash. -/
def hashStep (getHash : String → String) (hs : List (String × String))
    (kv : String × String) : List (String × String) :=
  let current := getHash kv.2
  match lookupFlat hs kv.1 with
  | some stored => if stored = current then hs else upsertFlat hs kv.1 current
  | none => upsertFlat hs kv.1 current

/-- The source hash-update loop of `main` (lines 222–230), folding
`hashStep` over the flattened source keys. -/
def updateHashes (getHash : String → String)
    (hashes : List (String × String)) (srcKeys : List (String × String)) :
    List (String × String) :=
  srcKeys.foldl (hashStep getHash) hashes

/-- Body of the missing-or-changed loop of `main` (lines 251–264):
a key absent from the target (`get_nested_value` is `None`) is `"missing"`;
otherwise the key is `"changed"` whenever `hashes.get(key_path)` is truthy
(a non-`None`, non-empty string) — note this tests only *presence* of a
stored hash, not a hash comparison. -/
def mocStep (targetData : JObj) (hashes : List (String × String))
    (acc : List (String × String × String)) (kv : String × String) :
    List (String × String × String) :=
  match get_nested_value targetData kv.1 with
  | none => acc ++ [(kv.1, kv.2, "missing")]
  | some _ =>
      match lookupFlat hashes kv.1 with
      | some h => if h = "" then acc else acc ++ [(kv.1, kv.2, "changed")]
      | none => acc

/-- The missing-or-changed batch of `main` (lines 249–264), folding
`mocStep` over the flattened source keys. -/
def missingOrChanged (srcKeys : List (String × String)) (targetData : JObj)
    (hashes : List (String × String)) : List (String × String × String) :=
  srcKeys.foldl (mocStep targetData hashes) []

/-- Body of the per-locale translate-and-merge loop of `main`
(lines 277–295): translate one batch entry, merge it into the target
object, bump the processed-key count and the API-invocation count. -/
def tlStep (api : String → String → Option String → ApiOutcome)
    (dlCode srcLang : String) (st : JObj × Nat × Nat)
    (entry : String × String × String) : JObj × Nat × Nat :=
  let tr := translate_text api entry.2.1 dlCode (some srcLang)
  (set_nested st.1 (splitOnDot entry.1) tr.1, st.2.1 + 1,
   st.2.2 + (if tr.2 then 1 else 0))

/-- The per-locale translate-and-merge loop of `main` (lines 277–295),
folding `tlStep` over the missing-or-changed batch. -/
def translateLoop (api : String → String → Option String → ApiOutcome)
    (dlCode srcLang : String) (targetData : JObj)
    (moc : List (String × String × String)) : JObj × Nat × Nat :=
  moc.foldl (tlStep api dlCode srcLang) (targetData, 0, 0)

/-- The ambient state a run sees: the API credential, the routing file
content (if the file exists), the parsed per-locale catalog files (if
present and readable), the parsed hash ledger, the abstract hash function
and the abstract DeepL client. -/
structure Env where
  apiKey : Option String
  routing : Option String
  catalogs : String → Option JObj
  ledger : List (String × String)
  getHash : String → String
  api : String → String → Option String → ApiOutcome

/-- Mutable state threaded through the namespace/target-locale loops of
`main`: the hash ledger, the catalog files written so far, the
`total_translations` counter, and a count of actual API invocations. -/
structure RunAcc where
  hashes : List (String × String)
  writes : List (String × JObj)
  total : Nat
  apiCalls : Nat

/-- Observable outcome of a completed run: the target catalog files
written (locale, content), the hash ledger saved at the end (`none` when
`main` returned before `save_hashes`), `total_translations`, and the
number of DeepL API invocations. -/
structure RunResult where
  writtenCatalogs : List (String × JObj)
  savedLedger : Option (List (String × String))
  totalTranslations : Nat
  apiCalls : Nat
deriving DecidableEq

/-- One iteration of the target-locale loop of `main` (lines 232–302):
skip locales without a DeepL code; load the target catalog (any failure
yields `{}`); compute the missing-or-changed batch; when non-empty,
translate, merge and record the file write. -/
def processTarget (api : String → String → Option String → ApiOutcome)
    (srcKeys : List (String × String)) (srcLang : String)
    (catalogs : String → Option JObj) (acc : RunAcc) (target : String) :
    RunAcc :=
  match lookupFlat deeplLangCodes target with
  | none => acc
  | some dlCode =>
      let targetData := (catalogs target).getD .nil
      let moc := missingOrChanged srcKeys targetData acc.hashes
      if moc.isEmpty then acc
      else
        let r := translateLoop api dlCode srcLang targetData moc
        { acc with
          writes := acc.writes ++ [(target, r.1)],
          total := acc.total + r.2.1,
          apiCalls := acc.apiCalls + r.2.2 }

/-- One iteration of the namespace loop of `main` (lines 205–304): skip
when the default-locale source file is absent; otherwise flatten the
source, run the hash-update loop and process every target locale. -/
def processNs (env : Env) (defaultLocale : String)
    (targetLocales : List String) (acc : RunAcc) (_ns : String) : RunAcc :=
  match env.catalogs defaultLocale with
  | none => acc
  | some srcData =>
      let srcKeys := collect_all_keys srcData "" []
      let hashes1 := updateHashes env.getHash acc.hashes srcKeys
      targetLocales.foldl
        (processTarget env.api srcKeys defaultLocale.toUpper env.catalogs)
        { acc with hashes := hashes1 }

/-- The whole script run: the module-level `DEEPL_API_KEY` check
(lines 31–35) and `main` (lines 174–312).  `get_all_namespaces`
(lines 121–128) checks for the literal file `de.json` and returns
`["messages"]`; the hash ledger is saved only when the run reaches line
307. -/
def runMain (env : Env) : Except Nat RunResult :=
  match env.apiKey with
  | none => Except.error 1
  | some _ =>
      match env.routing with
      | none => Except.error 1
      | some content =>
          match getLocalesContent content with
          | Except.error c => Except.error c
          | Except.ok allLocales =>
              let defaultLocale := getDefaultLocale content
              let targetLocales := allLocales.filter (fun l => l ≠ defaultLocale)
              if targetLocales.isEmpty then
                Except.ok ⟨[], none, 0, 0⟩
              else
                let namespaces : List String :=
                  if (env.catalogs "de").isSome then ["messages"] else []
                if namespaces.isEmpty then
                  Except.ok ⟨[], none, 0, 0⟩
                else
                  let acc := namespaces.foldl
                    (processNs env defaultLocale targetLocales)
                    ⟨env.ledger, [], 0, 0⟩
                  Except.ok ⟨acc.writes, some acc.hashes, acc.total, acc.apiCalls⟩

/-! ### Claim C4: blank and placeholder strings skip the API -/

/-- C4: for every empty or whitespace-only string and every string that
both starts and ends with the double-underscore placeholder marker,
`translate_text` returns the input unchanged and never invokes the
translation API, for every target and source language code. -/
theorem translate_text_skips_blank_and_placeholder
    (api : String → String → Option String → ApiOutcome)
    (text targetLang : String) (sourceLang : Option String)
    (h : isBlank text = true ∨
      (pyStartsWith text "__" = true ∧ pyEndsWith text "__" = true)) :
    translate_text api text targetLang sourceLang = (text, false) := by
  rcases h with h | ⟨h1, h2⟩
  · simp [translate_text, h]
  · cases hb : isBlank text <;> simp [translate_text, hb, h1, h2]

/-- Witness for C4 at the concrete placeholder string `"__name__"`. -/
theorem translate_text_skips_witness :
    (pyStartsWith "__name__" "__" = true ∧ pyEndsWith "__name__" "__" = true) ∧
    translate_text (fun _ _ _ => ApiOutcome.ok "BOOM") "__name__" "EN-US"
      (some "DE") = ("__name__", false) :=
  ⟨⟨by decide, by decide⟩,
    translate_text_skips_blank_and_placeholder _ _ _ _
      (Or.inr ⟨by decide, by decide⟩)⟩

/-! ### Claim C5: an API exception falls back to the original text -/

/-- C5: for every input text, if the API call raises
(`ApiOutcome.err`), `translate_text` returns the original input text
unchanged, so a per-key translation failure is recovered locally. -/
theorem translate_text_error_returns_original
    (api : String → String → Option String → ApiOutcome)
    (text targetLang : String) (sourceLang : Option String) (e : String)
    (h : api text targetLang sourceLang = ApiOutcome.err e) :
    (translate_text api text targetLang sourceLang).1 = text := by
  unfold translate_text
  cases hb : isBlank text
  · cases hp : (pyStartsWith text "__" && pyEndsWith text "__")
    · simp [hb, hp, h]
    · simp [hb, hp]
  · simp [hb]

/-- Witness for C5 with an always-raising API client. -/
theorem translate_text_error_witness :
    (fun (_ _ : String) (_ : Option String) => ApiOutcome.err "boom") "Hallo"
        "EN-US" (some "DE") = ApiOutcome.err "boom" ∧
    (translate_text (fun _ _ _ => ApiOutcome.err "boom") "Hallo" "EN-US"
        (some "DE")).1 = "Hallo" :=
  ⟨rfl, translate_text_error_returns_original _ _ _ _ "boom" rfl⟩

/-! ### Claim C6: keys absent from the target are batched -/

theorem mocStep_mono (t : JObj) (hashes : List (String × String))
    (acc : List (String × String × String)) (kv : String × String)
    (x : String × String × String) (hx : x ∈ acc) :
    x ∈ mocStep t hashes acc kv := by
  unfold mocStep
  cases hg : get_nested_value t kv.1 with
  | none => exact List.mem_append_left _ hx
  | some v =>
      cases hl : lookupFlat hashes kv.1 with
      | none => exact hx
      | some h =>
          by_cases he : h = ""
          · simp only [if_pos he]; exact hx
          · simp only [if_neg he]; exact List.mem_append_left _ hx

theorem foldl_mocStep_mono (t : JObj) (hashes : List (String × String)) :
    ∀ (l : List (String × String)) (acc : List (String × String × String))
      (x : String × String × String), x ∈ acc →
      x ∈ List.foldl (mocStep t hashes) acc l
  | [], _, _, hx => hx
  | _ :: l, _, x, hx =>
      foldl_mocStep_mono t hashes l _ x (mocStep_mono _ _ _ _ _ hx)

theorem mem_foldl_mocStep_missing (t : JObj) (hashes : List (String × String))
    (l : List (String × String)) :
    ∀ (acc : List (String × String × String)) (k v : String),
      (k, v) ∈ l → get_nested_value t k = none →
      (k, v, "missing") ∈ List.foldl (mocStep t hashes) acc l := by
  induction l with
  | nil => intro acc k v h _; cases h
  | cons kv l ih =>
      intro acc k v hmem hnone
      simp only [List.foldl_cons]
      rcases List.mem_cons.mp hmem with heq | htail
      · have hstep : mocStep t hashes acc kv = acc ++ [(k, v, "missing")] := by
          rw [← heq]; unfold mocStep; rw [hnone]
        rw [hstep]
        exact foldl_mocStep_mono _ _ _ _ _ (by simp)
      · exact ih _ k v htail hnone

/-- C6: every key path present in the flattened source but absent from the
target catalog (its dotted-path lookup yields `None`) is included, with its
source value and the `"missing"` tag, in the missing-or-changed batch. -/
theorem missing_key_in_batch (srcKeys : List (String × String))
    (targetData : JObj) (hashes : List (String × String)) (k v : String)
    (hmem : (k, v) ∈ srcKeys)
    (habsent : get_nested_value targetData k = none) :
    (k, v, "missing") ∈ missingOrChanged srcKeys targetData hashes :=
  mem_foldl_mocStep_missing _ _ _ _ k v hmem habsent

/-- Witness for C6: the key `"a"` is absent from the empty target. -/
theorem missing_key_in_batch_witness :
    (("a", "Hallo") ∈ [(("a" : String), ("Hallo" : String))]) ∧
    get_nested_value JObj.nil "a" = none ∧
    ("a", "Hallo", "missing") ∈ missingOrChanged [("a", "Hallo")] JObj.nil [] :=
  ⟨by decide, rfl, missing_key_in_batch _ _ _ "a" "Hallo" (by decide) rfl⟩

/-! ### Claim C1: change detection re-translates unchanged keys
(code bug).

The loop at lines 251–264 decides `"changed"` by `if current_hash:` — the
mere *presence* of a stored hash — instead of comparing the stored hash
with the previous one; and the loop at lines 222–230 has just stored a
hash for every source key.  So every source key already present in the
target is re-translated on every run, contradicting the script's own
docstring ("Only translates missing or changed keys") and the comment at
line 259 ("Check if value changed (hash mismatch)"). -/

/-- Concrete rerun scenario for C1: source `{"a": "hello"}` unchanged
since the last run (the ledger already stores the hash of `"hello"`), and
a target catalog that already contains `"a"`. -/
def envC1 : Env :=
  { apiKey := some "k"
    routing := some "locales: ['de', 'en'], defaultLocale: 'de'"
    catalogs := fun loc =>
      if loc = "de" then some (JObj.ofList [("a", JTree.leaf "hello")])
      else if loc = "en" then some (JObj.ofList [("a", JTree.leaf "hallo")])
      else none
    ledger := [("a", "h")]
    getHash := fun _ => "h"
    api := fun t _ _ => ApiOutcome.ok (t ++ "!") }

/-- C1 (refuting the claim as stated; the code contradicts its own
documentation): in `envC1` the stored ledger hash of key `"a"` equals the
hash of its current source value and `"a"` is present in the target
catalog, yet the rerun puts `("a", …, "changed")` into the translation
batch and performs one DeepL API call instead of zero, rewriting the
target catalog. -/
theorem unchanged_key_triggers_api_call :
    envC1.getHash "hello" = "h" ∧
    lookupFlat envC1.ledger "a" = some "h" ∧
    (get_nested_value (JObj.ofList [("a", JTree.leaf "hallo")]) "a").isSome
      = true ∧
    missingOrChanged [("a", "hello")] (JObj.ofList [("a", JTree.leaf "hallo")])
      [("a", "h")] = [("a", "hello", "changed")] ∧
    runMain envC1 =
      Except.ok ⟨[("en", JObj.ofList [("a", JTree.leaf "hello!")])],
        some [("a", "h")], 1, 1⟩ :=
  ⟨rfl, rfl, rfl, rfl, rfl⟩

/-! ### Claim C7: abort behaviour for routing configuration
(corrected).

`get_locales_from_routing` does `sys.exit(1)` when the routing file is
absent or the locales array cannot be located, but `get_default_locale`
(lines 115–119) silently falls back to `"de"` when the default-locale
declaration cannot be located — contrary to the claim, that case does not
abort the run. -/

/-- A routing file whose content has a locales array but no default-locale
declaration; everything else is a normal, complete configuration. -/
def envC7 : Env :=
  { apiKey := some "k"
    routing := some "locales: ['de', 'en']"
    catalogs := fun loc =>
      if loc = "de" then some (JObj.ofList [("a", JTree.leaf "Hallo")]) else none
    ledger := []
    getHash := fun _ => "h1"
    api := fun t _ _ => ApiOutcome.ok ("T:" ++ t) }

/-- Counterexample to C7: the default-locale declaration cannot be located
in `envC7`'s routing content, yet the run does not abort — it completes
normally (exit 0), using the `"de"` fallback. -/
theorem missing_default_locale_does_not_abort :
    searchDefault ("locales: ['de', 'en']" : String).data = none ∧
    getDefaultLocale "locales: ['de', 'en']" = "de" ∧
    runMain envC7 =
      Except.ok ⟨[("en", JObj.ofList [("a", JTree.leaf "T:Hallo")])],
        some [("a", "h1")], 1, 1⟩ :=
  ⟨rfl, rfl, rfl⟩

/-- C7 (amended): if the routing file is absent, or the locales array
cannot be located in it, the run aborts with exit code 1; if only the
default-locale declaration cannot be located, the run does not abort and
falls back to the default locale `"de"`. -/
theorem routing_config_abort_behavior :
    (∀ env : Env, env.routing = none → runMain env = Except.error 1) ∧
    (∀ (env : Env) (content : String), env.routing = some content →
      searchLocales content.data = none → runMain env = Except.error 1) ∧
    (∀ content : String, searchDefault content.data = none →
      getDefaultLocale content = "de") := by
  refine ⟨?_, ?_, ?_⟩
  · intro env h
    cases hk : env.apiKey <;> simp [runMain, hk, h]
  · intro env content hc hs
    cases hk : env.apiKey
    · simp [runMain, hk]
    · simp [runMain, hk, hc, getLocalesContent, hs]
  · intro content h
    unfold getDefaultLocale
    rw [h]

/-- Environment with no routing file at all. -/
def envNoRouting : Env :=
  { apiKey := some "k", routing := none, catalogs := fun _ => none,
    ledger := [], getHash := fun _ => "h", api := fun t _ _ => ApiOutcome.ok t }

/-- Environment whose routing content has no locales array. -/
def envNoArray : Env :=
  { apiKey := some "k", routing := some "export const x = 1",
    catalogs := fun _ => none, ledger := [], getHash := fun _ => "h",
    api := fun t _ _ => ApiOutcome.ok t }

/-- Witness for the amended C7 at concrete configurations. -/
theorem routing_config_abort_witness :
    runMain envNoRouting = Except.error 1 ∧
    runMain envNoArray = Except.error 1 ∧
    getDefaultLocale "export const x = 1" = "de" :=
  ⟨routing_config_abort_behavior.1 envNoRouting rfl,
   routing_config_abort_behavior.2.1 envNoArray "export const x = 1" rfl rfl,
   routing_config_abort_behavior.2.2 "export const x = 1" rfl⟩

/-! ### Claim C8: exit codes -/

/-- C8: every run either completes with exit code 0 (`Except.ok`) — in
particular for an arbitrary API client, i.e. even when some or all per-key
translations fail — or aborts with exit code 1, and the latter happens
only for missing required configuration: absent API credential, absent
routing file, or an unlocatable locales declaration. -/
theorem run_completion_exit_codes (env : Env) :
    (∃ r, runMain env = Except.ok r) ∨
    (runMain env = Except.error 1 ∧
      (env.apiKey = none ∨ env.routing = none ∨
        ∃ c, env.routing = some c ∧ searchLocales c.data = none)) := by
  cases hk : env.apiKey with
  | none => exact Or.inr ⟨by simp [runMain, hk], Or.inl rfl⟩
  | some key =>
      cases hr : env.routing with
      | none => exact Or.inr ⟨by simp [runMain, hk, hr], Or.inr (Or.inl rfl)⟩
      | some content =>
          cases hs : searchLocales content.data with
          | none =>
              exact Or.inr ⟨by simp [runMain, hk, hr, getLocalesContent, hs],
                Or.inr (Or.inr ⟨content, rfl, hs⟩)⟩
          | some s =>
              refine Or.inl ?_
              simp only [runMain, hk, hr, getLocalesContent, hs]
              split
              · exact ⟨_, rfl⟩
              · split
                · exact ⟨_, rfl⟩
                · exact ⟨_, rfl⟩

/-! ### Claim C9: the hash ledger never shrinks -/

theorem lookupFlat_upsertFlat (hs : List (String × String)) (k k' v : String) :
    lookupFlat (upsertFlat hs k' v) k =
      if k' = k then some v else lookupFlat hs k := by
  induction hs with
  | nil => by_cases h : k' = k <;> simp [upsertFlat, lookupFlat, h]
  | cons p rest ih =>
      obtain ⟨k0, v0⟩ := p
      by_cases h0 : k0 = k'
      · subst h0
        by_cases hk : k0 = k <;> simp [upsertFlat, lookupFlat, hk]
      · by_cases hk : k0 = k
        · subst hk
          have hne : ¬k' = k0 := fun h => h0 h.symm
          simp [upsertFlat, lookupFlat, h0, hne]
        · simp [upsertFlat, lookupFlat, h0, hk, ih]

theorem lookupFlat_hashStep_isSome (getHash : String → String)
    (hs : List (String × String)) (kv : String × String) (k : String)
    (h : (lookupFlat hs k).isSome = true) :
    (lookupFlat (hashStep getHash hs kv) k).isSome = true := by
  unfold hashStep
  cases hl : lookupFlat hs kv.1 with
  | none => rw [lookupFlat_upsertFlat]; split <;> simp [h]
  | some stored =>
      by_cases he : stored = getHash kv.2
      · simpa [he] using h
      · simp only [if_neg he]
        rw [lookupFlat_upsertFlat]; split <;> simp [h]

theorem updateHashes_isSome (getHash : String → String) :
    ∀ (l : List (String × String)) (hs : List (String × String)) (k : String),
      (lookupFlat hs k).isSome = true →
      (lookupFlat (updateHashes getHash hs l) k).isSome = true
  | [], _, _, h => h
  | kv :: l, hs, k, h =>
      updateHashes_isSome getHash l (hashStep getHash hs kv) k
        (lookupFlat_hashStep_isSome getHash hs kv k h)

theorem processTarget_hashes (api : String → String → Option String → ApiOutcome)
    (srcKeys : List (String × String)) (srcLang : String)
    (catalogs : String → Option JObj) (acc : RunAcc) (t : String) :
    (processTarget api srcKeys srcLang catalogs acc t).hashes = acc.hashes := by
  unfold processTarget
  split
  · rfl
  · dsimp only
    split <;> rfl

theorem foldl_processTarget_hashes
    (api : String → String → Option String → ApiOutcome)
    (srcKeys : List (String × String)) (srcLang : String)
    (catalogs : String → Option JObj) :
    ∀ (ls : List String) (acc : RunAcc),
      (ls.foldl (processTarget api srcKeys srcLang catalogs) acc).hashes =
        acc.hashes
  | [], _ => rfl
  | t :: ls, acc => by
      rw [List.foldl_cons,
        foldl_processTarget_hashes api srcKeys srcLang catalogs ls _,
        processTarget_hashes]

theorem processNs_isSome (env : Env) (d : String) (tls : List String)
    (acc : RunAcc) (ns : String) (k : String)
    (h : (lookupFlat acc.hashes k).isSome = true) :
    (lookupFlat (processNs env d tls acc ns).hashes k).isSome = true := by
  unfold processNs
  cases hc : env.catalogs d with
  | none => exact h
  | some srcData =>
      rw [foldl_processTarget_hashes]
      exact updateHashes_isSome _ _ _ _ h

theorem foldl_processNs_isSome (env : Env) (d : String) (tls : List String) :
    ∀ (nss : List String) (acc : RunAcc) (k : String),
      (lookupFlat acc.hashes k).isSome = true →
      (lookupFlat ((nss.foldl (processNs env d tls) acc)).hashes k).isSome = true
  | [], _, _, h => h
  | ns :: nss, acc, k, h =>
      foldl_processNs_isSome env d tls nss _ k (processNs_isSome env d tls acc ns k h)

/-- C9: the hash ledger never shrinks within a run — every key path present
in the ledger loaded at the start is still present (with its original or an
updated hash) in the ledger saved at the end of the run. -/
theorem ledger_never_shrinks (env : Env) (r : RunResult)
    (led : List (String × String)) (k : String)
    (hr : runMain env = Except.ok r) (hl : r.savedLedger = some led)
    (hk : (lookupFlat env.ledger k).isSome = true) :
    (lookupFlat led k).isSome = true := by
  cases hak : env.apiKey with
  | none => simp [runMain, hak] at hr
  | some key =>
  cases hro : env.routing with
  | none => simp [runMain, hak, hro] at hr
  | some content =>
  cases hs : searchLocales content.data with
  | none => simp [runMain, hak, hro, getLocalesContent, hs] at hr
  | some s =>
  simp only [runMain, hak, hro, getLocalesContent, hs] at hr
  split at hr
  · cases hr; simp at hl
  · split at hr
    · cases hr
      simp only [Option.some.injEq] at hl
      rw [← hl]
      exact processNs_isSome env _ _ ⟨env.ledger, [], 0, 0⟩ "messages" k hk
    · cases hr; simp at hl

/-- Concrete completing run for the C9 witness: the ledger holds a stale
key `"stale"` that no longer occurs in the source. -/
def envC9 : Env :=
  { apiKey := some "k"
    routing := some "locales: ['de', 'en'], defaultLocale: 'de'"
    catalogs := fun loc =>
      if loc = "de" then some (JObj.ofList [("a", JTree.leaf "Neu")]) else none
    ledger := [("stale", "s")]
    getHash := fun _ => "h9"
    api := fun t _ _ => ApiOutcome.ok ("X" ++ t) }

/-- Witness for C9: the stale ledger key survives the completed run. -/
theorem ledger_never_shrinks_witness :
    (lookupFlat [("stale", "s"), ("a", "h9")] "stale").isSome = true :=
  ledger_never_shrinks envC9
    ⟨[("en", JObj.ofList [("a", JTree.leaf "XNeu")])],
      some [("stale", "s"), ("a", "h9")], 1, 1⟩
    [("stale", "s"), ("a", "h9")] "stale" rfl rfl (by decide)

/-! ### Claim C10: only target-locale catalogs are written -/

theorem processTarget_writes_sub
    (api : String → String → Option String → ApiOutcome)
    (srcKeys : List (String × String)) (srcLang : String)
    (catalogs : String → Option JObj) (acc : RunAcc) (t : String)
    (p : String × JObj)
    (h : p ∈ (processTarget api srcKeys srcLang catalogs acc t).writes) :
    p ∈ acc.writes ∨ p.1 = t := by
  unfold processTarget at h
  split at h
  · exact Or.inl h
  · dsimp only at h
    split at h
    · exact Or.inl h
    · simp only at h
      rcases List.mem_append.mp h with h | h
      · exact Or.inl h
      · rcases List.mem_singleton.mp h with rfl
        exact Or.inr rfl

theorem foldl_processTarget_writes
    (api : String → String → Option String → ApiOutcome)
    (srcKeys : List (String × String)) (srcLang : String)
    (catalogs : String → Option JObj) :
    ∀ (ls : List String) (acc : RunAcc) (p : String × JObj),
      p ∈ ((ls.foldl (processTarget api srcKeys srcLang catalogs)) acc).writes →
      p ∈ acc.writes ∨ p.1 ∈ ls
  | [], _, _, h => Or.inl h
  | t :: ls, acc, p, h => by
      rcases foldl_processTarget_writes api srcKeys srcLang catalogs ls _ p h with
        h1 | h1
      · rcases processTarget_writes_sub api srcKeys srcLang catalogs acc t p h1 with
          h2 | h2
        · exact Or.inl h2
        · exact Or.inr (by simp [h2])
      · exact Or.inr (List.mem_cons_of_mem _ h1)

theorem processNs_writes_sub (env : Env) (d : String) (tls : List String)
    (acc : RunAcc) (ns : String) (p : String × JObj)
    (h : p ∈ (processNs env d tls acc ns).writes) :
    p ∈ acc.writes ∨ p.1 ∈ tls := by
  unfold processNs at h
  split at h
  · exact Or.inl h
  · dsimp only at h
    have h2 := foldl_processTarget_writes _ _ _ _ tls _ p h
    exact h2

theorem foldl_processNs_writes (env : Env) (d : String) (tls : List String) :
    ∀ (nss : List String) (acc : RunAcc) (p : String × JObj),
      p ∈ ((nss.foldl (processNs env d tls)) acc).writes →
      p ∈ acc.writes ∨ p.1 ∈ tls
  | [], _, _, h => Or.inl h
  | ns :: nss, acc, p, h => by
      rcases foldl_processNs_writes env d tls nss _ p h with h1 | h1
      · exact processNs_writes_sub env d tls acc ns p h1
      · exact Or.inr h1

/-- C10: a completed run never writes the default-locale catalog file —
every catalog file written is for a locale different from the run's
default locale (the hash ledger being the only other write, recorded
separately in `savedLedger`). -/
theorem run_writes_only_non_default (env : Env) (r : RunResult)
    (content : String) (p : String × JObj)
    (hr : runMain env = Except.ok r) (hc : env.routing = some content)
    (hp : p ∈ r.writtenCatalogs) :
    p.1 ≠ getDefaultLocale content := by
  cases hak : env.apiKey with
  | none => simp [runMain, hak] at hr
  | some key =>
  cases hs : searchLocales content.data with
  | none => simp [runMain, hak, hc, getLocalesContent, hs] at hr
  | some s =>
  simp only [runMain, hak, hc, getLocalesContent, hs] at hr
  split at hr
  · cases hr; simp at hp
  · split at hr
    · cases hr
      simp only at hp
      rcases processNs_writes_sub env _ _ ⟨env.ledger, [], 0, 0⟩ "messages" p hp
        with h1 | h1
      · simp at h1
      · have h2 := List.of_mem_filter h1
        simpa using h2
    · cases hr; simp at hp

/-- Concrete completing run for the C10 witness. -/
def envC10 : Env :=
  { apiKey := some "k"
    routing := some "locales: ['de', 'en'], defaultLocale: 'de'"
    catalogs := fun loc =>
      if loc = "de" then some (JObj.ofList [("a", JTree.leaf "Neu")]) else none
    ledger := []
    getHash := fun _ => "hX"
    api := fun t _ _ => ApiOutcome.ok ("X" ++ t) }

/-- Witness for C10: the single file written in `envC10`'s run is the
`"en"` catalog, which differs from the default locale `"de"`. -/
theorem run_writes_only_non_default_witness :
    ("en", JObj.ofList [("a", JTree.leaf "XNeu")]).1 ≠
      getDefaultLocale "locales: ['de', 'en'], defaultLocale: 'de'" :=
  run_writes_only_non_default envC10
    ⟨[("en", JObj.ofList [("a", JTree.leaf "XNeu")])], some [("a", "hX")], 1, 1⟩
    "locales: ['de', 'en'], defaultLocale: 'de'"
    ("en", JObj.ofList [("a", JTree.leaf "XNeu")]) rfl rfl (by decide)

/-! ### Claim C2: flatten/merge round trip (corrected).

A key containing a literal dot flattens to a dotted path that the merge
loop re-splits, so the round trip fails on such trees.  It holds for trees
whose keys are non-empty and dot-free, each object has no duplicate keys,
and every sub-object is non-empty. -/

/-- A key that survives dotted-path encoding: non-empty and dot-free. -/
def goodKey (k : String) : Bool :=
  decide (k ≠ "") && decide ('.' ∉ k.data)

mutual
/-- Round-trippable value: sub-objects are non-empty and recursively
good. -/
def goodVal : JTree → Bool
  | .leaf _ => true
  | .node es => !(JObj.beq es JObj.nil) && goodObj es

/-- Round-trippable object: keys good and unduplicated, values good. -/
def goodObj : JObj → Bool
  | .nil => true
  | .cons k v rest =>
      goodKey k && !(lookupKey rest k).isSome && goodVal v && goodObj rest
end

/-- The keys of an object, in order. -/
def keysObj : JObj → List String
  | .nil => []
  | .cons k _ rest => k :: keysObj rest

/-- Flattening with paths as segment lists (specification-level view of
`collect_all_keys`, for the round-trip proof). -/
def flatSeg : JObj → List (List String × String)
  | .nil => []
  | .cons k (JTree.leaf s) rest => ([k], s) :: flatSeg rest
  | .cons k (JTree.node es) rest =>
      (flatSeg es).map (fun q => (k :: q.1, q.2)) ++ flatSeg rest

/-- Flattening with dotted string paths and no accumulator: the ordered
pair list `collect_all_keys` produces when no path collisions occur. -/
def flatL : JObj → String → List (String × String)
  | .nil, _ => []
  | .cons k (JTree.leaf s) rest, pfx => (joinPath pfx k, s) :: flatL rest pfx
  | .cons k (JTree.node es) rest, pfx =>
      flatL es (joinPath pfx k) ++ flatL rest pfx

/-- The segments a prefix string contributes: none for the empty prefix
(`collect_all_keys` starts paths fresh there), its dot-split otherwise. -/
def pathSegs (pfx : String) : List String :=
  if pfx = "" then [] else splitOnDot pfx

/-- One merge step on a (segment path, value) pair. -/
def setSeg (d : JObj) (q : List String × String) : JObj :=
  set_nested d q.1 q.2

theorem splitD_ne_nil : ∀ cs : List Char, splitD cs ≠ []
  | [] => by simp [splitD]
  | c :: rest => by
      unfold splitD
      by_cases h : c = '.'
      · simp [h]
      · simp only [if_neg h]
        cases hs : splitD rest <;> simp

theorem splitD_no_dot : ∀ cs : List Char, '.' ∉ cs → splitD cs = [cs]
  | [], _ => rfl
  | c :: rest, h => by
      have hc : ¬c = '.' := fun he => h (he ▸ List.mem_cons_self c rest)
      have hr : '.' ∉ rest := fun hm => h (List.mem_cons_of_mem _ hm)
      unfold splitD
      rw [if_neg hc, splitD_no_dot rest hr]

theorem splitD_append_dot : ∀ as bs : List Char,
    splitD (as ++ '.' :: bs) = splitD as ++ splitD bs
  | [], bs => by simp [splitD]
  | c :: as, bs => by
      simp only [List.cons_append, splitD, List.append_eq]
      by_cases h : c = '.'
      · rw [if_pos h, if_pos h, splitD_append_dot as bs]
        simp
      · rw [if_neg h, if_neg h, splitD_append_dot as bs]
        cases hs : splitD as with
        | nil => exact absurd hs (splitD_ne_nil as)
        | cons g gs => simp

theorem mk_data (s : String) : String.mk s.data = s := rfl

theorem splitOnDot_no_dot (k : String) (h : '.' ∉ k.data) :
    splitOnDot k = [k] := by
  unfold splitOnDot
  rw [splitD_no_dot k.data h]
  simp [mk_data]

theorem data_ne_nil_iff (s : String) : s ≠ "" ↔ s.data ≠ [] := by
  constructor
  · intro h hd
    exact h (String.ext hd)
  · intro h he
    exact h (by rw [he])

theorem splitOnDot_join (pfx k : String) (_hk1 : k ≠ "") (hk2 : '.' ∉ k.data) :
    splitOnDot (joinPath pfx k) = pathSegs pfx ++ [k] := by
  unfold joinPath pathSegs
  by_cases hp : pfx = ""
  · rw [if_pos hp, if_pos hp, splitOnDot_no_dot k hk2]
    rfl
  · rw [if_neg hp, if_neg hp]
    unfold splitOnDot
    have hd : (pfx ++ "." ++ k).data = pfx.data ++ '.' :: k.data := by
      rw [String.data_append, String.data_append, List.append_assoc]
      rfl
    rw [hd, splitD_append_dot, List.map_append, splitD_no_dot k.data hk2]
    simp [mk_data]

theorem joinPath_ne_empty (pfx k : String) (hk : k ≠ "") :
    joinPath pfx k ≠ "" := by
  unfold joinPath
  by_cases hp : pfx = ""
  · rw [if_pos hp]; exact hk
  · rw [if_neg hp]
    rw [data_ne_nil_iff, String.data_append, String.data_append]
    simp

theorem pathSegs_join (pfx k : String) (hk1 : k ≠ "") (hk2 : '.' ∉ k.data) :
    pathSegs (joinPath pfx k) = pathSegs pfx ++ [k] := by
  have h := joinPath_ne_empty pfx k hk1
  unfold pathSegs
  rw [if_neg h]
  exact splitOnDot_join pfx k hk1 hk2

theorem lookupFlat_eq_none_iff (l : List (String × String)) (k : String) :
    lookupFlat l k = none ↔ k ∉ l.map Prod.fst := by
  induction l with
  | nil => simp [lookupFlat]
  | cons p rest ih =>
      obtain ⟨k0, v0⟩ := p
      by_cases h : k0 = k
      · subst h; simp [lookupFlat]
      · simp only [lookupFlat, if_neg h, List.map_cons]
        rw [ih]
        constructor
        · intro hn hc
          rcases List.mem_cons.mp hc with hc | hc
          · exact h hc.symm
          · exact hn hc
        · exact fun hn hm => hn (List.mem_cons_of_mem _ hm)

theorem upsertFlat_not_mem (l : List (String × String)) (k v : String)
    (h : lookupFlat l k = none) : upsertFlat l k v = l ++ [(k, v)] := by
  induction l with
  | nil => rfl
  | cons p rest ih =>
      obtain ⟨k0, v0⟩ := p
      by_cases h0 : k0 = k
      · simp [lookupFlat, h0] at h
      · simp only [lookupFlat, if_neg h0] at h
        simp [upsertFlat, h0, ih h]

theorem lookupFlat_append_none (a b : List (String × String)) (k : String)
    (ha : lookupFlat a k = none) (hb : lookupFlat b k = none) :
    lookupFlat (a ++ b) k = none := by
  induction a with
  | nil => simpa using hb
  | cons p rest ih =>
      obtain ⟨k0, v0⟩ := p
      by_cases h0 : k0 = k
      · simp [lookupFlat, h0] at ha
      · simp only [lookupFlat, if_neg h0] at ha
        simp only [List.cons_append, lookupFlat, if_neg h0]
        exact ih ha

theorem goodKey_spec (k : String) :
    goodKey k = true ↔ (k ≠ "" ∧ '.' ∉ k.data) := by
  simp [goodKey]

theorem goodObj_cons_iff (k : String) (v : JTree) (rest : JObj) :
    goodObj (JObj.cons k v rest) = true ↔
      (goodKey k = true ∧ (lookupKey rest k).isSome = false ∧
        goodVal v = true ∧ goodObj rest = true) := by
  simp [goodObj, Bool.and_eq_true, and_assoc]

theorem goodVal_node_iff (es : JObj) :
    goodVal (JTree.node es) = true ↔ (es ≠ JObj.nil ∧ goodObj es = true) := by
  simp only [goodVal, Bool.and_eq_true, Bool.not_eq_true']
  constructor
  · rintro ⟨h1, h2⟩
    refine ⟨fun he => ?_, h2⟩
    rw [he] at h1
    simp [JObj.beq] at h1
  · rintro ⟨h1, h2⟩
    refine ⟨?_, h2⟩
    cases hb : JObj.beq es JObj.nil
    · rfl
    · exact absurd ((JObj.beq_iff_obj es JObj.nil).mp hb) h1

theorem keysObj_lookup : ∀ (es : JObj) (k : String),
    k ∈ keysObj es ↔ (lookupKey es k).isSome = true
  | .nil, k => by simp [keysObj, lookupKey]
  | .cons k0 v rest, k => by
      by_cases h : k0 = k
      · subst h; simp [keysObj, lookupKey]
      · simp only [keysObj, List.mem_cons, lookupKey, if_neg h]
        rw [← keysObj_lookup rest k]
        constructor
        · rintro (hc | hc)
          · exact absurd hc.symm h
          · exact hc
        · exact fun hm => Or.inr hm

theorem flatSeg_head : ∀ (es : JObj) (q : List String × String),
    q ∈ flatSeg es → ∃ k t, q.1 = k :: t ∧ k ∈ keysObj es
  | .nil, q, h => absurd h (by simp [flatSeg])
  | .cons k0 (JTree.leaf s) rest, q, h => by
      simp only [flatSeg] at h
      rcases List.mem_cons.mp h with heq | h'
      · exact ⟨k0, [], by rw [heq], by simp [keysObj]⟩
      · obtain ⟨k, t, h1, h2⟩ := flatSeg_head rest q h'
        exact ⟨k, t, h1, by simp [keysObj, h2]⟩
  | .cons k0 (JTree.node es') rest, q, h => by
      simp only [flatSeg] at h
      rcases List.mem_append.mp h with h' | h'
      · obtain ⟨q', _, heq⟩ := List.mem_map.mp h'
        exact ⟨k0, q'.1, by rw [← heq], by simp [keysObj]⟩
      · obtain ⟨k, t, h1, h2⟩ := flatSeg_head rest q h'
        exact ⟨k, t, h1, by simp [keysObj, h2]⟩

theorem flatSeg_paths_ne_nil (es : JObj) (q : List String × String)
    (h : q ∈ flatSeg es) : q.1 ≠ [] := by
  obtain ⟨k, t, h1, _⟩ := flatSeg_head es q h
  rw [h1]
  simp

theorem flatSeg_ne_nil : ∀ es : JObj, goodObj es = true → es ≠ JObj.nil →
    flatSeg es ≠ []
  | .nil, _, h => absurd rfl h
  | .cons k (JTree.leaf s) rest, _, _ => by simp [flatSeg]
  | .cons k (JTree.node es') rest, hg, _ => by
      obtain ⟨_, _, hv, _⟩ := (goodObj_cons_iff k _ rest).mp hg
      obtain ⟨hne, hg'⟩ := (goodVal_node_iff es').mp hv
      have h' := flatSeg_ne_nil es' hg' hne
      simp only [flatSeg]
      intro hc
      rcases List.append_eq_nil.mp hc with ⟨h1, _⟩
      exact h' (List.map_eq_nil_iff.mp h1)

theorem flatSeg_paths_nodup : ∀ es : JObj, goodObj es = true →
    ((flatSeg es).map Prod.fst).Nodup
  | .nil, _ => by simp [flatSeg]
  | .cons k0 v rest, hg => by
      obtain ⟨_, hlk, hv, hgrest⟩ := (goodObj_cons_iff k0 v rest).mp hg
      have hk0 : k0 ∉ keysObj rest := by
        rw [keysObj_lookup, hlk]; simp
      cases v with
      | leaf s =>
          simp only [flatSeg, List.map_cons, List.nodup_cons]
          refine ⟨?_, flatSeg_paths_nodup rest hgrest⟩
          intro hmem
          obtain ⟨q, hq, heq⟩ := List.mem_map.mp hmem
          obtain ⟨k, t, h1, h2⟩ := flatSeg_head rest q hq
          rw [h1] at heq
          cases heq
          exact hk0 h2
      | node es' =>
          obtain ⟨hne, hg'⟩ := (goodVal_node_iff es').mp hv
          simp only [flatSeg, List.map_append, List.map_map]
          rw [List.nodup_append]
          refine ⟨?_, flatSeg_paths_nodup rest hgrest, ?_⟩
          · have hmm : (flatSeg es').map (Prod.fst ∘ fun q => (k0 :: q.1, q.2)) =
                ((flatSeg es').map Prod.fst).map (fun t => k0 :: t) := by
              simp [List.map_map]
            rw [hmm]
            refine List.Nodup.map ?_ (flatSeg_paths_nodup es' hg')
            intro a b hab
            exact (List.cons.injEq _ _ _ _).mp hab |>.2
          · intro a ha hb
            obtain ⟨q, _, heqa⟩ := List.mem_map.mp ha
            obtain ⟨q', hq', heqb⟩ := List.mem_map.mp hb
            obtain ⟨k, t, h1, h2⟩ := flatSeg_head rest q' hq'
            rw [← heqb, h1] at heqa
            simp only [Function.comp] at heqa
            cases heqa
            exact hk0 h2

theorem flatL_map_split : ∀ (es : JObj) (pfx : String), goodObj es = true →
    (flatL es pfx).map (fun pr => (splitOnDot pr.1, pr.2)) =
      (flatSeg es).map (fun q => (pathSegs pfx ++ q.1, q.2))
  | .nil, _, _ => rfl
  | .cons k (JTree.leaf s) rest, pfx, hg => by
      obtain ⟨hk, _, _, hgrest⟩ := (goodObj_cons_iff k _ rest).mp hg
      obtain ⟨hk1, hk2⟩ := (goodKey_spec k).mp hk
      simp only [flatL, flatSeg, List.map_cons]
      rw [splitOnDot_join pfx k hk1 hk2, flatL_map_split rest pfx hgrest]
  | .cons k (JTree.node es') rest, pfx, hg => by
      obtain ⟨hk, _, hv, hgrest⟩ := (goodObj_cons_iff k _ rest).mp hg
      obtain ⟨hk1, hk2⟩ := (goodKey_spec k).mp hk
      obtain ⟨_, hg'⟩ := (goodVal_node_iff es').mp hv
      simp only [flatL, flatSeg, List.map_append, List.map_map]
      rw [flatL_map_split es' (joinPath pfx k) hg',
        flatL_map_split rest pfx hgrest, pathSegs_join pfx k hk1 hk2]
      congr 1
      simp [Function.comp, List.append_assoc]

theorem collect_eq_flatL : ∀ (es : JObj) (pfx : String)
    (acc : List (String × String)),
    ((flatL es pfx).map Prod.fst).Nodup →
    (∀ p ∈ (flatL es pfx).map Prod.fst, lookupFlat acc p = none) →
    collect_all_keys es pfx acc = acc ++ flatL es pfx
  | .nil, _, acc, _, _ => by simp [collect_all_keys, flatL]
  | .cons k (JTree.leaf s) rest, pfx, acc, hnd, hacc => by
      simp only [flatL, List.map_cons, List.nodup_cons] at hnd
      have hcp : lookupFlat acc (joinPath pfx k) = none := by
        apply hacc
        simp [flatL]
      simp only [collect_all_keys]
      rw [upsertFlat_not_mem acc _ s hcp,
        collect_eq_flatL rest pfx (acc ++ [(joinPath pfx k, s)]) hnd.2 ?_,
        List.append_assoc]
      · simp [flatL]
      · intro p hp
        apply lookupFlat_append_none
        · exact hacc p (by simp [flatL, hp])
        · have hne : ¬joinPath pfx k = p := fun he => hnd.1 (he ▸ hp)
          simp [lookupFlat, hne]
  | .cons k (JTree.node es') rest, pfx, acc, hnd, hacc => by
      simp only [flatL, List.map_append] at hnd
      rw [List.nodup_append] at hnd
      obtain ⟨h1, h2, hdisj⟩ := hnd
      simp only [collect_all_keys]
      rw [collect_eq_flatL es' (joinPath pfx k) acc h1 ?_,
        collect_eq_flatL rest pfx (acc ++ flatL es' (joinPath pfx k)) h2 ?_,
        List.append_assoc]
      · simp [flatL]
      · intro p hp
        apply lookupFlat_append_none
        · apply hacc
          simp only [flatL, List.map_append]
          exact List.mem_append.mpr (Or.inr hp)
        · rw [lookupFlat_eq_none_iff]
          exact fun hc => hdisj hc hp
      · intro p hp
        apply hacc
        simp only [flatL, List.map_append]
        exact List.mem_append.mpr (Or.inl hp)

theorem lookupKey_dictUpdate_self : ∀ (d : JObj) (k : String) (v : JTree),
    lookupKey (dictUpdate d k v) k = some v
  | .nil, k, v => by simp [dictUpdate, lookupKey]
  | .cons k0 v0 rest, k, v => by
      by_cases h : k0 = k
      · simp [dictUpdate, h, lookupKey]
      · simp [dictUpdate, h, lookupKey, lookupKey_dictUpdate_self rest k v]

theorem lookupKey_dictUpdate_ne : ∀ (d : JObj) (k : String) (v : JTree)
    (k' : String), k' ≠ k → lookupKey (dictUpdate d k v) k' = lookupKey d k'
  | .nil, k, v, k', h => by
      have hne : ¬k = k' := fun he => h he.symm
      simp [dictUpdate, lookupKey, hne]
  | .cons k0 v0 rest, k, v, k', h => by
      by_cases h0 : k0 = k
      · subst h0
        have hne : ¬k0 = k' := fun he => h he.symm
        simp [dictUpdate, lookupKey, hne]
      · simp [dictUpdate, h0, lookupKey,
          lookupKey_dictUpdate_ne rest k v k' h]

theorem dictUpdate_dictUpdate : ∀ (d : JObj) (k : String) (v w : JTree),
    dictUpdate (dictUpdate d k v) k w = dictUpdate d k w
  | .nil, k, v, w => by simp [dictUpdate]
  | .cons k0 v0 rest, k, v, w => by
      by_cases h : k0 = k
      · simp [dictUpdate, h]
      · simp [dictUpdate, h, dictUpdate_dictUpdate rest k v w]

theorem set_nested_cons_ne (k : String) (v : JTree) (d : JObj) (k' : String)
    (pp : List String) (w : String) (h : k' ≠ k) :
    set_nested (JObj.cons k v d) (k' :: pp) w =
      JObj.cons k v (set_nested d (k' :: pp) w) := by
  have hne : ¬k = k' := fun he => h he.symm
  cases pp with
  | nil => simp [set_nested, dictUpdate, hne]
  | cons q rest => simp [set_nested, lookupKey, dictUpdate, hne]

theorem foldl_setSeg_cons (k : String) (v : JTree) :
    ∀ (l : List (List String × String)) (d : JObj),
      (∀ q ∈ l, ∃ h0 t0, q.1 = h0 :: t0 ∧ h0 ≠ k) →
      List.foldl setSeg (JObj.cons k v d) l =
        JObj.cons k v (List.foldl setSeg d l)
  | [], _, _ => rfl
  | q :: l, d, hl => by
      obtain ⟨h0, t0, hq, hne⟩ := hl q (List.mem_cons_self q l)
      simp only [List.foldl_cons]
      have hstep : setSeg (JObj.cons k v d) q = JObj.cons k v (setSeg d q) := by
        unfold setSeg
        rw [hq]
        exact set_nested_cons_ne k v d h0 t0 q.2 hne
      rw [hstep]
      exact foldl_setSeg_cons k v l (setSeg d q)
        (fun q' hq' => hl q' (List.mem_cons_of_mem _ hq'))

/-- The sub-object the merge loop descends into: an existing dict value,
or `{}` when the key is absent or holds a non-dict. -/
def subOf : Option JTree → JObj
  | some (JTree.node es) => es
  | _ => JObj.nil

theorem set_nested_cons_eq (d : JObj) (k : String) (p0 : String)
    (pr : List String) (w : String) :
    set_nested d (k :: p0 :: pr) w =
      dictUpdate d k
        (JTree.node (set_nested (subOf (lookupKey d k)) (p0 :: pr) w)) := by
  cases hlk : lookupKey d k with
  | none => simp [set_nested, subOf, hlk]
  | some t => cases t <;> simp [set_nested, subOf, hlk]

theorem foldl_setSeg_group (k : String) :
    ∀ (l : List (List String × String)) (d : JObj), l ≠ [] →
      (∀ q ∈ l, q.1 ≠ []) →
      List.foldl setSeg d (l.map (fun q => (k :: q.1, q.2))) =
        dictUpdate d k
          (JTree.node (List.foldl setSeg (subOf (lookupKey d k)) l))
  | [], _, hne, _ => absurd rfl hne
  | [q], d, _, hp => by
      obtain ⟨p0, pr, hq⟩ : ∃ p0 pr, q.1 = p0 :: pr := by
        cases hq1 : q.1 with
        | nil => exact absurd hq1 (hp q (by simp))
        | cons a b => exact ⟨a, b, rfl⟩
      simp only [List.map_cons, List.map_nil, List.foldl_cons, List.foldl_nil,
        setSeg]
      rw [hq, set_nested_cons_eq]
  | q :: q' :: l, d, _, hp => by
      obtain ⟨p0, pr, hq⟩ : ∃ p0 pr, q.1 = p0 :: pr := by
        cases hq1 : q.1 with
        | nil => exact absurd hq1 (hp q (by simp))
        | cons a b => exact ⟨a, b, rfl⟩
      have hstep : setSeg d (k :: q.1, q.2) =
          dictUpdate d k
            (JTree.node (set_nested (subOf (lookupKey d k)) q.1 q.2)) := by
        unfold setSeg
        rw [hq, set_nested_cons_eq]
      rw [show (q :: q' :: l).map (fun q => (k :: q.1, q.2)) =
            (k :: q.1, q.2) :: (q' :: l).map (fun q => (k :: q.1, q.2))
          from rfl,
        List.foldl_cons, hstep,
        foldl_setSeg_group k (q' :: l) _ (by simp)
          (fun x hx => hp x (List.mem_cons_of_mem _ hx)),
        lookupKey_dictUpdate_self, dictUpdate_dictUpdate]
      rfl

theorem flatSeg_heads_ne (k : String) (rest : JObj)
    (hlk : (lookupKey rest k).isSome = false) :
    ∀ q ∈ flatSeg rest, ∃ h0 t0, q.1 = h0 :: t0 ∧ h0 ≠ k := by
  intro q hq
  obtain ⟨h0, t0, h1, h2⟩ := flatSeg_head rest q hq
  refine ⟨h0, t0, h1, fun he => ?_⟩
  rw [he, keysObj_lookup, hlk] at h2
  cases h2

theorem roundtripSeg : ∀ es : JObj, goodObj es = true →
    List.foldl setSeg JObj.nil (flatSeg es) = es
  | .nil, _ => rfl
  | .cons k (JTree.leaf s) rest, hg => by
      obtain ⟨_, hlk, _, hgrest⟩ := (goodObj_cons_iff k _ rest).mp hg
      simp only [flatSeg, List.foldl_cons]
      rw [show setSeg JObj.nil ([k], s) = JObj.cons k (JTree.leaf s) JObj.nil
            from rfl,
        foldl_setSeg_cons k (JTree.leaf s) (flatSeg rest) JObj.nil
          (flatSeg_heads_ne k rest hlk),
        roundtripSeg rest hgrest]
  | .cons k (JTree.node es') rest, hg => by
      obtain ⟨_, hlk, hv, hgrest⟩ := (goodObj_cons_iff k _ rest).mp hg
      obtain ⟨hne, hg'⟩ := (goodVal_node_iff es').mp hv
      simp only [flatSeg, List.foldl_append]
      rw [foldl_setSeg_group k (flatSeg es') JObj.nil
          (flatSeg_ne_nil es' hg' hne)
          (fun q hq => flatSeg_paths_ne_nil es' q hq),
        show subOf (lookupKey JObj.nil k) = JObj.nil from rfl,
        roundtripSeg es' hg',
        show dictUpdate JObj.nil k (JTree.node es') =
          JObj.cons k (JTree.node es') JObj.nil from rfl,
        foldl_setSeg_cons k (JTree.node es') (flatSeg rest) JObj.nil
          (flatSeg_heads_ne k rest hlk),
        roundtripSeg rest hgrest]

theorem flatL_paths_nodup (es : JObj) (hg : goodObj es = true) :
    ((flatL es "").map Prod.fst).Nodup := by
  apply List.Nodup.of_map splitOnDot
  have h1 : ((flatL es "").map Prod.fst).map splitOnDot =
      ((flatL es "").map (fun pr => (splitOnDot pr.1, pr.2))).map Prod.fst := by
    simp [List.map_map, Function.comp]
  rw [h1, flatL_map_split es "" hg]
  have h2 : ((flatSeg es).map
      (fun q => (pathSegs "" ++ q.1, q.2))).map Prod.fst =
      (flatSeg es).map Prod.fst := by
    simp [List.map_map, Function.comp, pathSegs]
  rw [h2]
  exact flatSeg_paths_nodup es hg

/-- Counterexample to C2 as stated: the single-entry tree with the dotted
key `"a.b"` flattens to the path `"a.b"`, which the merge loop re-splits,
so the round trip yields a two-level tree instead of the original. -/
theorem flatten_merge_not_inverse_on_dotted_keys :
    mergePairs JObj.nil
        (collect_all_keys (JObj.ofList [("a.b", JTree.leaf "v")]) "" []) =
      JObj.ofList [("a", JTree.node (JObj.ofList [("b", JTree.leaf "v")]))] ∧
    JObj.ofList [("a", JTree.node (JObj.ofList [("b", JTree.leaf "v")]))] ≠
      JObj.ofList [("a.b", JTree.leaf "v")] :=
  ⟨rfl, by decide⟩

/-- C2 (amended): for every nested key-value tree whose keys are non-empty
and dot-free, whose objects have no duplicate keys and whose sub-objects
are non-empty (`goodObj`), flattening with `collect_all_keys` and merging
every resulting (dotted path, value) pair into an empty target via the
orchestrator's nested-structure-building loop reproduces the original tree
exactly. -/
theorem flatten_merge_roundtrip (t : JObj) (hg : goodObj t = true) :
    mergePairs JObj.nil (collect_all_keys t "" []) = t := by
  have hnd := flatL_paths_nodup t hg
  rw [collect_eq_flatL t "" [] hnd (fun p _ => rfl), List.nil_append]
  unfold mergePairs
  rw [show (flatL t "").foldl
        (fun d pr => set_nested d (splitOnDot pr.1) pr.2) JObj.nil =
      List.foldl (fun d q => setSeg d q) JObj.nil
        ((flatL t "").map (fun pr => (splitOnDot pr.1, pr.2))) by
    rw [List.foldl_map]
    rfl]
  rw [flatL_map_split t "" hg]
  have h2 : (flatSeg t).map (fun q => (pathSegs "" ++ q.1, q.2)) =
      flatSeg t := by
    simp [pathSegs]
  rw [h2]
  exact roundtripSeg t hg

/-- Witness for the amended C2 at a concrete two-level tree. -/
theorem flatten_merge_roundtrip_witness :
    goodObj (JObj.ofList
      [("a", JTree.node (JObj.ofList [("b", JTree.leaf "v")])),
       ("c", JTree.leaf "w")]) = true ∧
    mergePairs JObj.nil
        (collect_all_keys (JObj.ofList
          [("a", JTree.node (JObj.ofList [("b", JTree.leaf "v")])),
           ("c", JTree.leaf "w")]) "" []) =
      JObj.ofList
        [("a", JTree.node (JObj.ofList [("b", JTree.leaf "v")])),
         ("c", JTree.leaf "w")] :=
  ⟨by decide, flatten_merge_roundtrip _ (by decide)⟩

/-! ### Claim C3: the merge preserves other keys (corrected).

Setting a batch path can destroy target values at paths that are
dotted-segment prefix-comparable with it: a leaf sitting at a proper
prefix of a batch path is replaced by `{}` (line 286–287), and a batch
path that is a proper prefix of existing leaves overwrites their whole
subtree.  Preservation holds exactly for target paths that diverge from
every batch path. -/

/-- Dotted-segment prefix test between split paths. -/
def segPre : List String → List String → Bool
  | [], _ => true
  | _ :: _, [] => false
  | a :: as, b :: bs => if a = b then segPre as bs else false

theorem getNested_fresh_chain : ∀ (pp qq : List String) (v : String),
    segPre pp qq = false → segPre qq pp = false →
    getNestedAux (JTree.node (set_nested JObj.nil pp v)) qq = none
  | [], _, _, h1, _ => by simp [segPre] at h1
  | _ :: _, [], _, _, h2 => by simp [segPre] at h2
  | p1 :: pr, q1 :: qr, v, h1, h2 => by
      by_cases he : p1 = q1
      · subst he
        simp only [segPre, if_pos rfl] at h1 h2
        cases pr with
        | nil => simp [segPre] at h1
        | cons p2 pr' =>
            cases qr with
            | nil => simp [segPre] at h2
            | cons q2 qr' =>
                rw [show set_nested JObj.nil (p1 :: p2 :: pr') v =
                      JObj.cons p1
                        (JTree.node (set_nested JObj.nil (p2 :: pr') v))
                        JObj.nil from rfl]
                simp only [getNestedAux, lookupKey, if_pos rfl]
                exact getNested_fresh_chain (p2 :: pr') (q2 :: qr') v h1 h2
      · cases pr with
        | nil => simp [set_nested, dictUpdate, getNestedAux, lookupKey, he]
        | cons p2 pr' =>
            rw [show set_nested JObj.nil (p1 :: p2 :: pr') v =
                  JObj.cons p1
                    (JTree.node (set_nested JObj.nil (p2 :: pr') v))
                    JObj.nil from rfl]
            simp [getNestedAux, lookupKey, he]

theorem set_nested_preserves_divergent : ∀ (pp : List String) (d : JObj)
    (qq : List String) (v : String),
    segPre pp qq = false → segPre qq pp = false →
    getNestedAux (JTree.node (set_nested d pp v)) qq =
      getNestedAux (JTree.node d) qq
  | [], _, _, _, h1, _ => by simp [segPre] at h1
  | _ :: _, _, [], _, _, h2 => by simp [segPre] at h2
  | p1 :: pr, d, q1 :: qr, v, h1, h2 => by
      by_cases he : p1 = q1
      · subst he
        simp only [segPre, if_pos rfl] at h1 h2
        cases pr with
        | nil => simp [segPre] at h1
        | cons p2 pr' =>
            cases qr with
            | nil => simp [segPre] at h2
            | cons q2 qr' =>
                rw [set_nested_cons_eq d p1 p2 pr' v]
                simp only [getNestedAux, lookupKey_dictUpdate_self]
                cases hlk : lookupKey d p1 with
                | none =>
                    exact getNested_fresh_chain (p2 :: pr') (q2 :: qr') v h1 h2
                | some t =>
                    cases t with
                    | leaf s =>
                        exact getNested_fresh_chain (p2 :: pr') (q2 :: qr') v h1 h2
                    | node es =>
                        exact set_nested_preserves_divergent (p2 :: pr') es
                          (q2 :: qr') v h1 h2
      · have hne : ¬p1 = q1 := he
        cases pr with
        | nil =>
            simp only [set_nested, getNestedAux]
            rw [lookupKey_dictUpdate_ne d p1 (JTree.leaf v) q1
                  (fun hc => hne hc.symm)]
        | cons p2 pr' =>
            rw [set_nested_cons_eq d p1 p2 pr' v]
            simp only [getNestedAux]
            rw [lookupKey_dictUpdate_ne d p1 _ q1 (fun hc => hne hc.symm)]

theorem translateLoop_preserves_divergent
    (api : String → String → Option String → ApiOutcome)
    (dlCode srcLang : String) :
    ∀ (moc : List (String × String × String)) (st : JObj × Nat × Nat)
      (qq : List String),
      (∀ p ∈ moc, segPre (splitOnDot p.1) qq = false ∧
        segPre qq (splitOnDot p.1) = false) →
      getNestedAux
          (JTree.node (List.foldl (tlStep api dlCode srcLang) st moc).1) qq =
        getNestedAux (JTree.node st.1) qq
  | [], _, _, _ => rfl
  | entry :: moc, st, qq, hdiv => by
      rw [List.foldl_cons,
        translateLoop_preserves_divergent api dlCode srcLang moc _ qq
          (fun p hp => hdiv p (List.mem_cons_of_mem _ hp))]
      obtain ⟨hd1, hd2⟩ := hdiv entry (List.mem_cons_self entry moc)
      exact set_nested_preserves_divergent (splitOnDot entry.1) st.1 qq _
        hd1 hd2

/-- Counterexample to C3 as stated: with target catalog `{"a": "x"}` and
source `{"a": {"b": "v"}}`, the batch is exactly `[("a.b", …, "missing")]`
(so `"a"` is not in the batch), yet after the merge the target's key path
`"a"` no longer holds its previous value `"x"` — the leaf was replaced by
an intermediate object. -/
theorem merge_destroys_conflicting_leaf :
    missingOrChanged
        (collect_all_keys
          (JObj.ofList [("a", JTree.node (JObj.ofList [("b", JTree.leaf "v")]))])
          "" [])
        (JObj.ofList [("a", JTree.leaf "x")])
        (updateHashes (fun _ => "h") [] [("a.b", "v")]) =
      [("a.b", "v", "missing")] ∧
    ("a" : String) ≠ "a.b" ∧
    get_nested_value (JObj.ofList [("a", JTree.leaf "x")]) "a" =
      some (JTree.leaf "x") ∧
    (translateLoop (fun t _ _ => ApiOutcome.ok t) "EN-US" "DE"
        (JObj.ofList [("a", JTree.leaf "x")]) [("a.b", "v", "missing")]).1 =
      JObj.ofList [("a", JTree.node (JObj.ofList [("b", JTree.leaf "v")]))] ∧
    get_nested_value
        (JObj.ofList [("a", JTree.node (JObj.ofList [("b", JTree.leaf "v")]))])
        "a" ≠ some (JTree.leaf "x") :=
  ⟨rfl, by decide, rfl, rfl, by decide⟩

/-- C3 (amended): when the orchestrator's translate-and-merge loop
processes a batch of missing/changed key paths against a target catalog,
every key path of the target that is dotted-segment divergent from every
batch path — neither a prefix of a batch path nor extended by one — keeps
exactly its previous value.  (Prefix-comparable paths can be destroyed, as
the counterexample shows.) -/
theorem merge_preserves_divergent_paths
    (api : String → String → Option String → ApiOutcome)
    (dlCode srcLang : String) (targetData : JObj)
    (moc : List (String × String × String)) (q : String)
    (hdiv : ∀ p ∈ moc, segPre (splitOnDot p.1) (splitOnDot q) = false ∧
        segPre (splitOnDot q) (splitOnDot p.1) = false) :
    get_nested_value (translateLoop api dlCode srcLang targetData moc).1 q =
      get_nested_value targetData q := by
  unfold get_nested_value translateLoop
  exact translateLoop_preserves_divergent api dlCode srcLang moc
    (targetData, 0, 0) (splitOnDot q) hdiv

/-- Witness for the amended C3: merging the batch path `"a.b"` leaves the
divergent target path `"c.d"` untouched. -/
theorem merge_preserves_divergent_paths_witness :
    get_nested_value
        (translateLoop (fun t _ _ => ApiOutcome.ok t) "EN-US" "DE"
          (JObj.ofList
            [("c", JTree.node (JObj.ofList [("d", JTree.leaf "w")]))])
          [("a.b", "v", "missing")]).1 "c.d" =
      get_nested_value
        (JObj.ofList [("c", JTree.node (JObj.ofList [("d", JTree.leaf "w")]))])
        "c.d" :=
  merge_preserves_divergent_paths _ "EN-US" "DE" _ _ "c.d" (by decide)
